import Mathlib

/-!
Verification of the MultiArray container (multiarr.h, a generic fixed-dimensionality
multi-dimensional array over a flat backing store), together with its two source
variants: a debug variant exposing a public `counter` field incremented by the
range-assign base case, and a variant whose range-assign base case fills through
`d_data.begin() + offset` iterators instead of element addresses.

The embedding represents the backing store `Container<T> d_data` as a `List T`,
the axis-size array `std::size_t d_dimensions[D]` as a `List Nat` of length `D`,
coordinate tuples (the variadic index argument packs) as `List Nat`, and the
range table `size_t ranges[D][2]` as a `List (Nat × Nat)`.  `std::size_t`
arithmetic is modelled over `Nat`; the one subtraction the source performs,
`end - begin`, agrees with truncated `Nat` subtraction exactly on the regime
`begin ≤ end` in which the source's behaviour is defined (for `begin > end` the
C++ `size_t` subtraction wraps and the fill runs out of bounds, which is
undefined behaviour), and every theorem below stays inside that regime.
-/

namespace MultiArr

/-- Source `product(head, tail...)`: `head * (sizeof...(Tail) == 0 ? 1 : product(tail...))`.
The nullary case is only declared, never defined, in the source (the recursion never
reaches it for `D ≥ 1`); the `[] => 1` clause here is the `? 1 :` branch folded in. -/
def product : List Nat → Nat
  | [] => 1
  | h :: t => h * product t

/-- Source `indexMap(head, tail...)` over the member `d_dimensions` (here the first
argument `dims`): with `count = sizeof...(tail)`, it computes
`fac = ∏ dims[D - count .. D - 1]` (the product of the last `count` axis sizes,
i.e. `product (dims.drop (dims.length - count))`) and returns
`head * fac + (count == 0 ? 0 : indexMap(tail...))`.  The nullary overload is only
declared in the source; the `[] => 0` clause is the `? 0 :` branch folded in. -/
def indexMap (dims : List Nat) : List Nat → Nat
  | [] => 0
  | h :: t => h * product (dims.drop (dims.length - t.length)) + indexMap dims t

/-- Source innermost bulk fill `std::fill(&d_data[begin], &d_data[end], val)` with
`end = begin + n`: writes `val` into positions `begin, begin+1, …, begin+n-1`
through element addresses (multiarr.h and the debug variant). -/
def fillN {T : Type} (data : List T) (start : Nat) : Nat → T → List T
  | 0, _ => data
  | n + 1, v => fillN (data.set start v) (start + 1) n v

/-- The MultiArray class of multiarr.h: flat backing store plus axis sizes. -/
structure MultiArray (T : Type) where
  d_data : List T
  d_dimensions : List Nat

/-- Source constructor `MultiArray(args...)`: stores the sizes in axis order and
builds the backing store with `product(args...)` default-constructed elements
(`dflt` stands for the default-constructed `T`). -/
def MultiArray.make {T : Type} (dflt : T) (sizes : List Nat) : MultiArray T :=
  ⟨List.replicate (product sizes) dflt, sizes⟩

/-- Source `operator()(args...)` used as an lvalue for a write: stores `v` at
linear offset `indexMap(args...)`.  (`List.set` is a no-op out of bounds; in the
source an out-of-range offset is undefined behaviour.) -/
def MultiArray.writeAt {T : Type} (a : MultiArray T) (idx : List Nat) (v : T) : MultiArray T :=
  ⟨a.d_data.set (indexMap a.d_dimensions idx) v, a.d_dimensions⟩

/-- Source `operator()(args...)` used for a read: the element at linear offset
`indexMap(args...)`, `none` when that offset is outside the store (undefined
behaviour in the source). -/
def MultiArray.readAt {T : Type} (a : MultiArray T) (idx : List Nat) : Option T :=
  a.d_data.get? (indexMap a.d_dimensions idx)

/-- Source `dim()`: the number of dimensions `D`. -/
def MultiArray.dim {T : Type} (a : MultiArray T) : Nat :=
  a.d_dimensions.length

/-- Source `size(dim)`: `d_dimensions[dim]` (unchecked in the source; out-of-range
axis is a logic error there, modelled by the default `0`). -/
def MultiArray.size {T : Type} (a : MultiArray T) (k : Nat) : Nat :=
  a.d_dimensions.getD k 0

/-- Source `Assign<Level>::assign(self, ranges, val, indices...)` of multiarr.h.
`ranges` here is the still-unprocessed tail `ranges[Level .. D-1]` of the range
table and `idxs` the accumulated outer indices, so the specialisation
`Assign<D-1>` is the singleton case: it computes
`begin = indexMap(indices..., ranges[D-1][0])` and bulk-fills
`end - begin = ranges[D-1][1] - ranges[D-1][0]` elements from there.  The general
case is the loop `for (i = ranges[Level][0]; i != ranges[Level][1]; ++i)`
recursing at `Level + 1` with `i` appended: the loop visits
`i = b, b+1, …, b + (e-b) - 1`, which is the index list `List.range' b (e - b)`,
folded left in loop order.  The `[]` case is unreachable for `D ≥ 1`. -/
def assignAux {T : Type} (dims : List Nat) (v : T) :
    List (Nat × Nat) → List Nat → List T → List T
  | [], _, data => data
  | [(b, e)], idxs, data => fillN data (indexMap dims (idxs ++ [b])) (e - b) v
  | (b, e) :: r :: rest, idxs, data =>
      (List.range' b (e - b)).foldl
        (fun d i => assignAux dims v (r :: rest) (idxs ++ [i]) d) data

/-- Source `assign(ranges, val)`: dispatches `Assign<0>::assign(*this, ranges, val)`
with no accumulated indices. -/
def MultiArray.assign {T : Type} (a : MultiArray T) (ranges : List (Nat × Nat)) (v : T) :
    MultiArray T :=
  ⟨assignAux a.d_dimensions v ranges [] a.d_data, a.d_dimensions⟩

/-- Source uniform-fill overload `assign(val)`:
`std::fill(d_data.begin(), d_data.end(), val)` overwrites every element in place. -/
def MultiArray.assignAll {T : Type} (a : MultiArray T) (v : T) : MultiArray T :=
  ⟨a.d_data.map (fun _ => v), a.d_dimensions⟩

/-! The debug variant of the source (the one carrying a public
`std::size_t counter{0}` field): identical to multiarr.h except that its
`Assign<D-1>` base case first executes
`self.counter += (ranges[D-1][1] - ranges[D-1][0]);` before the bulk fill.
The state is the pair of backing store and counter. -/

/-- The MultiArray class of the debug variant: backing store, axis sizes, and the
public debug counter. -/
structure MultiArrayDbg (T : Type) where
  d_data : List T
  d_dimensions : List Nat
  counter : Nat

/-- Debug-variant constructor: as in multiarr.h, with `counter` initialised to `0`
by its member initialiser. -/
def MultiArrayDbg.make {T : Type} (dflt : T) (sizes : List Nat) : MultiArrayDbg T :=
  ⟨List.replicate (product sizes) dflt, sizes, 0⟩

/-- Debug-variant `operator()` write: identical to multiarr.h, does not touch the
counter. -/
def MultiArrayDbg.writeAt {T : Type} (a : MultiArrayDbg T) (idx : List Nat) (v : T) :
    MultiArrayDbg T :=
  ⟨a.d_data.set (indexMap a.d_dimensions idx) v, a.d_dimensions, a.counter⟩

/-- Debug-variant uniform fill `assign(val)`: identical to multiarr.h, does not
touch the counter. -/
def MultiArrayDbg.assignAll {T : Type} (a : MultiArrayDbg T) (v : T) : MultiArrayDbg T :=
  ⟨a.d_data.map (fun _ => v), a.d_dimensions, a.counter⟩

/-- Debug-variant `Assign<Level>::assign`: as `assignAux`, but the base case adds
the inner trip count `ranges[D-1][1] - ranges[D-1][0]` to the counter before the
fill.  The state threaded through is `(d_data, counter)`. -/
def assignAuxDbg {T : Type} (dims : List Nat) (v : T) :
    List (Nat × Nat) → List Nat → List T × Nat → List T × Nat
  | [], _, st => st
  | [(b, e)], idxs, st =>
      (fillN st.1 (indexMap dims (idxs ++ [b])) (e - b) v, st.2 + (e - b))
  | (b, e) :: r :: rest, idxs, st =>
      (List.range' b (e - b)).foldl
        (fun s i => assignAuxDbg dims v (r :: rest) (idxs ++ [i]) s) st

/-- Debug-variant `assign(ranges, val)`. -/
def MultiArrayDbg.assign {T : Type} (a : MultiArrayDbg T) (ranges : List (Nat × Nat)) (v : T) :
    MultiArrayDbg T :=
  let st := assignAuxDbg a.d_dimensions v ranges [] (a.d_data, a.counter)
  ⟨st.1, a.d_dimensions, st.2⟩

/-! The iterator variant of the source (the one with `Assign<Level, MaxLevel>`):
identical recursion, but its base case fills through container iterators,
`begin = d_data.begin() + indexMap(indices..., ranges[D-1][0])` and
`end = begin + (ranges[D-1][1] - ranges[D-1][0])`, instead of element addresses.
A fill through iterators over a sequence is modelled by splicing: keep the first
`start` elements, lay down the filled run, continue at `start + n`. -/

/-- Iterator-based bulk fill `std::fill(d_data.begin() + start, d_data.begin() + start + n, val)`,
modelled as a splice of the filled run into the sequence.  Inside the container
(`start + n ≤ data.length`, the only regime where the source iterators are valid)
this writes exactly positions `start, …, start + n - 1`. -/
def fillIter {T : Type} (data : List T) (start n : Nat) (v : T) : List T :=
  data.take start ++ List.replicate n v ++ data.drop (start + n)

/-- Iterator-variant `Assign<Level, MaxLevel>::assign`: as `assignAux`, with the
base case `Assign<MaxLevel, MaxLevel>` filling via `fillIter`. -/
def assignAuxIter {T : Type} (dims : List Nat) (v : T) :
    List (Nat × Nat) → List Nat → List T → List T
  | [], _, data => data
  | [(b, e)], idxs, data => fillIter data (indexMap dims (idxs ++ [b])) (e - b) v
  | (b, e) :: r :: rest, idxs, data =>
      (List.range' b (e - b)).foldl
        (fun d i => assignAuxIter dims v (r :: rest) (idxs ++ [i]) d) data

/-- Iterator-variant `assign(ranges, val)` (its class carries the same `d_data`
and `d_dimensions` members as multiarr.h, so it is modelled on `MultiArray`). -/
def MultiArray.assignIter {T : Type} (a : MultiArray T) (ranges : List (Nat × Nat)) (v : T) :
    MultiArray T :=
  ⟨assignAuxIter a.d_dimensions v ranges [] a.d_data, a.d_dimensions⟩

/-- Validity of a range table against the axis sizes, as the spec states it:
`0 ≤ begin_k ≤ end_k ≤ dimensions[k]` for every axis `k` (and one pair per axis). -/
def validRanges (dims : List Nat) (ranges : List (Nat × Nat)) : Prop :=
  List.Forall₂ (fun (r : Nat × Nat) (d : Nat) => r.1 ≤ r.2 ∧ r.2 ≤ d) ranges dims

/-- A coordinate tuple lies in the half-open box of a range table:
`begin_k ≤ i_k < end_k` for every axis `k`. -/
def inBox (ranges : List (Nat × Nat)) (idx : List Nat) : Prop :=
  List.Forall₂ (fun (i : Nat) (r : Nat × Nat) => r.1 ≤ i ∧ i < r.2) idx ranges

/-- A valid coordinate tuple: one index per axis with `0 ≤ i_k < dimensions[k]`. -/
def validIndex (dims : List Nat) (idx : List Nat) : Prop :=
  List.Forall₂ (· < ·) idx dims

/-- Pointwise list relations are decidable when the underlying relation is, so
concrete instances of the predicates above can be settled by evaluation. -/
def decForall₂ {α β : Type} (R : α → β → Prop) [∀ a b, Decidable (R a b)] :
    (l₁ : List α) → (l₂ : List β) → Decidable (List.Forall₂ R l₁ l₂)
  | [], [] => isTrue List.Forall₂.nil
  | [], _ :: _ => isFalse fun h => by cases h
  | _ :: _, [] => isFalse fun h => by cases h
  | a :: l₁, b :: l₂ =>
      haveI := decForall₂ R l₁ l₂
      decidable_of_iff (R a b ∧ List.Forall₂ R l₁ l₂) List.forall₂_cons.symm

instance {α β : Type} (R : α → β → Prop) [∀ a b, Decidable (R a b)] (l₁ : List α) (l₂ : List β) :
    Decidable (List.Forall₂ R l₁ l₂) :=
  decForall₂ R l₁ l₂

instance (dims : List Nat) (ranges : List (Nat × Nat)) : Decidable (validRanges dims ranges) := by
  unfold validRanges; infer_instance

instance (ranges : List (Nat × Nat)) (idx : List Nat) : Decidable (inBox ranges idx) := by
  unfold inBox; infer_instance

instance (dims : List Nat) (idx : List Nat) : Decidable (validIndex dims idx) := by
  unfold validIndex; infer_instance

/-! Arithmetic of the index map. -/

/-- Dropping an axis on the left does not change the index map of an argument pack
that does not reach it: every factor `fac` only looks at the last `count` axes. -/
theorem indexMap_cons (d : Nat) (ds t : List Nat) (h : t.length ≤ ds.length) :
    indexMap (d :: ds) t = indexMap ds t := by
  induction t with
  | nil => rfl
  | cons x t ih =>
    have ht : t.length < ds.length := by simpa using h
    simp only [indexMap]
    rw [ih (Nat.le_of_lt ht)]
    have hdrop : (d :: ds).length - t.length = (ds.length - t.length) + 1 := by
      simp only [List.length_cons]; omega
    rw [hdrop, List.drop_succ_cons]

/-- The head recurrence of the index map at full arity: the leading index is
weighted by the product of all remaining axis sizes. -/
theorem indexMap_cons_full (d i : Nat) (ds t : List Nat) (h : t.length = ds.length) :
    indexMap (d :: ds) (i :: t) = i * product ds + indexMap ds t := by
  simp only [indexMap]
  rw [indexMap_cons d ds t (le_of_eq h)]
  have hdrop : (d :: ds).length - t.length = 1 := by
    simp only [List.length_cons]; omega
  rw [hdrop]
  rfl

/-- The offset of a valid coordinate tuple is below the total element count. -/
theorem indexMap_lt {dims idx : List Nat} (h : validIndex dims idx) :
    indexMap dims idx < product dims := by
  induction h with
  | nil => exact Nat.zero_lt_one
  | @cons i d t ds hlt htail ih =>
    rw [indexMap_cons_full d i ds t htail.length_eq]
    calc i * product ds + indexMap ds t
        < i * product ds + product ds := Nat.add_lt_add_left ih _
      _ = (i + 1) * product ds := by ring
      _ ≤ d * product ds := Nat.mul_le_mul_right _ hlt
      _ = product (d :: ds) := rfl

/-- The last argument of the index map has stride 1: varying it shifts the offset
by exactly its value. -/
theorem indexMap_append_last (dims xs : List Nat) (t : Nat) :
    indexMap dims (xs ++ [t]) = indexMap dims (xs ++ [0]) + t := by
  induction xs with
  | nil =>
    simp [indexMap, List.drop_length, product]
  | cons x xs ih =>
    simp only [List.cons_append, indexMap, List.append_eq]
    have hlen : (xs ++ [t]).length = (xs ++ [0]).length := by simp
    rw [hlen, ih]
    ring

/-- The inverse of the index map: peel off the leading coordinate by division by
the product of the remaining axis sizes. -/
def unindex : List Nat → Nat → List Nat
  | [], _ => []
  | _ :: ds, n => n / product ds :: unindex ds (n % product ds)

theorem unindex_length (dims : List Nat) (n : Nat) : (unindex dims n).length = dims.length := by
  induction dims generalizing n with
  | nil => rfl
  | cons d ds ih => simp [unindex, ih]

/-- `unindex` is a left inverse of the index map on valid coordinate tuples. -/
theorem unindex_indexMap {dims idx : List Nat} (h : validIndex dims idx) :
    unindex dims (indexMap dims idx) = idx := by
  induction h with
  | nil => rfl
  | @cons i d t ds hlt htail ih =>
    rw [indexMap_cons_full d i ds t htail.length_eq]
    have hP : indexMap ds t < product ds := indexMap_lt htail
    have hP0 : 0 < product ds := Nat.pos_of_ne_zero fun h0 => by omega
    simp only [unindex]
    have hdiv : (i * product ds + indexMap ds t) / product ds = i := by
      rw [Nat.add_comm, Nat.add_mul_div_right _ _ hP0, Nat.div_eq_of_lt hP]
      omega
    have hmod : (i * product ds + indexMap ds t) % product ds = indexMap ds t := by
      rw [Nat.add_comm, Nat.add_mul_mod_self_right, Nat.mod_eq_of_lt hP]
    rw [hdiv, hmod, ih]

/-- `unindex` is a right inverse of the index map on `[0, total)`: every linear
offset decodes to a valid coordinate tuple mapping back to it. -/
theorem validIndex_unindex {dims : List Nat} :
    ∀ {n : Nat}, n < product dims →
      validIndex dims (unindex dims n) ∧ indexMap dims (unindex dims n) = n := by
  induction dims with
  | nil =>
    intro n hn
    have : n = 0 := by simpa [product] using hn
    subst this
    exact ⟨List.Forall₂.nil, rfl⟩
  | cons d ds ih =>
    intro n hn
    have hP0 : 0 < product ds := by
      rcases Nat.eq_zero_or_pos (product ds) with h0 | h0
      · exfalso; have : product (d :: ds) = 0 := by simp [product, h0]
        omega
      · exact h0
    have hdiv : n / product ds < d := by
      apply Nat.div_lt_of_lt_mul
      simpa [product, Nat.mul_comm] using hn
    have hmod : n % product ds < product ds := Nat.mod_lt _ hP0
    obtain ⟨hv, he⟩ := ih hmod
    refine ⟨List.Forall₂.cons hdiv hv, ?_⟩
    simp only [unindex]
    rw [indexMap_cons_full d _ ds _ (by rw [unindex_length]), he]
    rw [Nat.mul_comm]
    exact Nat.div_add_mod n (product ds)

/-- The index map is injective on valid coordinate tuples. -/
theorem indexMap_injOn {dims idx idx' : List Nat} (h : validIndex dims idx)
    (h' : validIndex dims idx') (heq : indexMap dims idx = indexMap dims idx') :
    idx = idx' := by
  have h1 := unindex_indexMap h
  have h2 := unindex_indexMap h'
  rw [heq] at h1
  rw [← h1, h2]

/-! Behaviour of the innermost bulk fill. -/

theorem fillN_length {T : Type} (v : T) (n : Nat) :
    ∀ (data : List T) (s : Nat), (fillN data s n v).length = data.length := by
  induction n with
  | zero => intro data s; rfl
  | succ n ih => intro data s; simp only [fillN]; rw [ih, List.length_set]

/-- Positions outside `[start, start + n)` are untouched by the fill. -/
theorem fillN_get?_ge {T : Type} (v : T) (n : Nat) :
    ∀ (data : List T) (s j : Nat), j < s ∨ s + n ≤ j →
      (fillN data s n v).get? j = data.get? j := by
  induction n with
  | zero => intro data s j _; rfl
  | succ n ih =>
    intro data s j h
    simp only [fillN]
    rw [ih _ _ _ (by omega), List.get?_set_ne _ _ (by omega)]

/-- Positions inside `[start, start + n)` and inside the store hold the fill
value afterwards. -/
theorem fillN_get?_mem {T : Type} (v : T) (n : Nat) :
    ∀ (data : List T) (s j : Nat), s ≤ j → j < s + n → j < data.length →
      (fillN data s n v).get? j = some v := by
  induction n with
  | zero => intro data s j h1 h2 _; omega
  | succ n ih =>
    intro data s j h1 h2 hlt
    simp only [fillN]
    rcases Nat.eq_or_lt_of_le h1 with rfl | hgt
    · rw [fillN_get?_ge v n _ _ _ (Or.inl (by omega))]
      exact List.get?_set_eq_of_lt _ hlt
    · exact ih _ _ _ hgt (by omega) (by rw [List.length_set]; exact hlt)

/-- A fill writes nothing but the fill value: each position either holds `v`
afterwards or is unchanged. -/
theorem fillN_get?_or {T : Type} (v : T) (n : Nat) (data : List T) (s j : Nat) :
    (fillN data s n v).get? j = some v ∨ (fillN data s n v).get? j = data.get? j := by
  by_cases h1 : j < s ∨ s + n ≤ j
  · exact Or.inr (fillN_get?_ge v n data s j h1)
  · push_neg at h1
    by_cases h2 : j < data.length
    · exact Or.inl (fillN_get?_mem v n data s j h1.1 (by omega) h2)
    · refine Or.inr ?_
      rw [List.get?_eq_none.2 (by rw [fillN_length]; omega), List.get?_eq_none.2 (by omega)]

/-! Generic facts about left folds, used to reason about the unrolled
`for`-loops of the range-assign recursion. -/

theorem foldl_preserve {α β : Type} (P : α → Prop) (f : α → β → α)
    (hf : ∀ a b, P a → P (f a b)) :
    ∀ (l : List β) (a : α), P a → P (l.foldl f a) := by
  intro l
  induction l with
  | nil => intro a h; exact h
  | cons b l ih => intro a h; exact ih _ (hf a b h)

theorem foldl_preserve_mem {α β : Type} (P : α → Prop) (f : α → β → α) :
    ∀ (l : List β), (∀ a b, b ∈ l → P a → P (f a b)) → ∀ (a : α), P a → P (l.foldl f a) := by
  intro l
  induction l with
  | nil => intro _ a h; exact h
  | cons b l ih =>
    intro hf a h
    exact ih (fun a c hc => hf a c (List.mem_cons.mpr (Or.inr hc))) _
      (hf a b (List.mem_cons.mpr (Or.inl rfl)) h)

/-- If some element of the fold list establishes `P` (from the invariant `Q`),
every element preserves `Q`, and every element preserves `P`, then the whole
fold satisfies `P`. -/
theorem foldl_establish {α β : Type} (Q P : α → Prop) (f : α → β → α) (b₀ : β) :
    ∀ (l : List β) (a : α), b₀ ∈ l → Q a →
      (∀ a b, Q a → Q (f a b)) →
      (∀ a, Q a → P (f a b₀)) →
      (∀ a b, P a → P (f a b)) →
      P (l.foldl f a) := by
  intro l
  induction l with
  | nil => intro a h; cases h
  | cons c l ih =>
    intro a hmem hQ hQpres hest hPpres
    rcases List.mem_cons.mp hmem with rfl | hmem
    · exact foldl_preserve P f hPpres l _ (hest a hQ)
    · exact ih _ hmem (hQpres a c hQ) hQpres hest hPpres

/-- Pointwise relations concatenate. -/
theorem forall₂_append {α β : Type} {R : α → β → Prop} :
    ∀ {l₁ : List α} {l₂ : List β} {u₁ : List α} {u₂ : List β},
      List.Forall₂ R l₁ l₂ → List.Forall₂ R u₁ u₂ → List.Forall₂ R (l₁ ++ u₁) (l₂ ++ u₂) := by
  intro l₁ l₂ u₁ u₂ h h'
  induction h with
  | nil => exact h'
  | cons hab htail ih => exact List.Forall₂.cons hab ih

/-- A coordinate tuple inside the box of a valid range table is a valid
coordinate tuple. -/
theorem validIndex_of_inBox {dims : List Nat} {ranges : List (Nat × Nat)} {tail : List Nat}
    (hr : validRanges dims ranges) (hb : inBox ranges tail) : validIndex dims tail := by
  induction hb generalizing dims with
  | nil => cases hr; exact List.Forall₂.nil
  | cons hab htail ih =>
    cases hr with
    | cons hrd hrest => exact List.Forall₂.cons (by omega) (ih hrest)

/-! Behaviour of the range-assign recursion. -/

/-- Range assignment never changes the length of the backing store. -/
theorem assignAux_length {T : Type} (dims : List Nat) (v : T) :
    ∀ (rs : List (Nat × Nat)) (idxs : List Nat) (data : List T),
      (assignAux dims v rs idxs data).length = data.length
  | [], _, _ => rfl
  | [(b, e)], idxs, data => by
      simp only [assignAux]; exact fillN_length v _ _ _
  | (b, e) :: r :: rest, idxs, data => by
      simp only [assignAux]
      exact foldl_preserve (fun d => d.length = data.length)
        (fun d i => assignAux dims v (r :: rest) (idxs ++ [i]) d)
        (fun d i hd => by
          show (assignAux dims v (r :: rest) (idxs ++ [i]) d).length = data.length
          rw [assignAux_length dims v (r :: rest) (idxs ++ [i]) d]; exact hd)
        (List.range' b (e - b)) data rfl

/-- Range assignment writes nothing but the fill value: each position either
holds `v` afterwards or is unchanged. -/
theorem assignAux_get?_or {T : Type} (dims : List Nat) (v : T) :
    ∀ (rs : List (Nat × Nat)) (idxs : List Nat) (data : List T) (j : Nat),
      (assignAux dims v rs idxs data).get? j = some v ∨
      (assignAux dims v rs idxs data).get? j = data.get? j
  | [], _, _, _ => Or.inr rfl
  | [(b, e)], idxs, data, j => by
      simp only [assignAux]; exact fillN_get?_or v _ _ _ _
  | (b, e) :: r :: rest, idxs, data, j => by
      simp only [assignAux]
      exact foldl_preserve (fun d => d.get? j = some v ∨ d.get? j = data.get? j)
        (fun d i => assignAux dims v (r :: rest) (idxs ++ [i]) d)
        (fun d i hd => by
          show (assignAux dims v (r :: rest) (idxs ++ [i]) d).get? j = some v ∨
            (assignAux dims v (r :: rest) (idxs ++ [i]) d).get? j = data.get? j
          rcases assignAux_get?_or dims v (r :: rest) (idxs ++ [i]) d j with h | h
          · exact Or.inl h
          · rw [h]; exact hd)
        (List.range' b (e - b)) data (Or.inr rfl)

/-- Frame property of range assignment: a linear offset that is not the image of
any coordinate tuple extending `idxs` inside the box is unchanged. -/
theorem assignAux_get?_of_notMem {T : Type} (dims : List Nat) (v : T) :
    ∀ (rs : List (Nat × Nat)) (idxs : List Nat) (data : List T) (j : Nat),
      (∀ tail, inBox rs tail → j ≠ indexMap dims (idxs ++ tail)) →
      (assignAux dims v rs idxs data).get? j = data.get? j
  | [], _, _, _, _ => rfl
  | [(b, e)], idxs, data, j, hj => by
      simp only [assignAux]
      apply fillN_get?_ge
      by_contra hcon
      push_neg at hcon
      obtain ⟨h1, h2⟩ := hcon
      have hb := indexMap_append_last dims idxs b
      have hsub : e - b > 0 := by omega
      set o := indexMap dims (idxs ++ [b]) with ho
      have hm : j - o < e - b := by omega
      refine hj [b + (j - o)] (List.Forall₂.cons ⟨by omega, by omega⟩ List.Forall₂.nil) ?_
      have ht := indexMap_append_last dims idxs (b + (j - o))
      omega
  | (b, e) :: r :: rest, idxs, data, j, hj => by
      simp only [assignAux]
      refine foldl_preserve_mem (fun d => d.get? j = data.get? j)
        (fun d i => assignAux dims v (r :: rest) (idxs ++ [i]) d)
        (List.range' b (e - b)) ?_ data rfl
      intro d i hi hd
      show (assignAux dims v (r :: rest) (idxs ++ [i]) d).get? j = data.get? j
      rw [assignAux_get?_of_notMem dims v (r :: rest) (idxs ++ [i]) d j]
      · exact hd
      intro tail₂ hb₂ heq
      have hi' := List.mem_range'_1.mp hi
      refine hj (i :: tail₂) (List.Forall₂.cons ⟨hi'.1, by omega⟩ hb₂) ?_
      rw [heq]
      simp [List.append_assoc]

/-- Hit property of range assignment: the image of every coordinate tuple inside
the box holds the fill value afterwards.  `dims = pre ++ suf`, the accumulated
indices `idxs` are valid for the outer axes `pre`, and `rs` is the still-pending
range table for the inner axes `suf`. -/
theorem assignAux_get?_of_inBox {T : Type} (dims : List Nat) (v : T) :
    ∀ (rs : List (Nat × Nat)) (suf pre idxs : List Nat) (data : List T) (tail : List Nat),
      rs ≠ [] →
      dims = pre ++ suf →
      validIndex pre idxs →
      validRanges suf rs →
      inBox rs tail →
      data.length = product dims →
      (assignAux dims v rs idxs data).get? (indexMap dims (idxs ++ tail)) = some v
  | [], _, _, _, _, _, hne, _, _, _, _, _ => absurd rfl hne
  | [(b, e)], suf, pre, idxs, data, tail, _, hsplit, hidxs, hr, hb, hlen => by
      obtain ⟨t, tail₂, hbt, hb₂, rfl⟩ :
          ∃ t tail₂, (b ≤ t ∧ t < e) ∧ inBox [] tail₂ ∧ tail = t :: tail₂ := by
        cases hb with
        | cons hab htail => exact ⟨_, _, hab, htail, rfl⟩
      cases hb₂
      obtain ⟨d, hbe, hed, rfl⟩ : ∃ d, (b ≤ e ∧ e ≤ d) ∧ True ∧ suf = [d] := by
        cases hr with
        | cons hrd hrest => cases hrest; exact ⟨_, hrd, trivial, rfl⟩
      simp only [assignAux]
      have hvt : validIndex dims (idxs ++ [t]) := by
        rw [hsplit]
        exact forall₂_append hidxs (List.Forall₂.cons (by omega) List.Forall₂.nil)
      have hlt := indexMap_lt hvt
      have hob := indexMap_append_last dims idxs b
      have hot := indexMap_append_last dims idxs t
      exact fillN_get?_mem v _ _ _ _ (by omega) (by omega) (by omega)
  | (b, e) :: r :: rest, suf, pre, idxs, data, tail, _, hsplit, hidxs, hr, hb, hlen => by
      obtain ⟨t, tail₂, hbt, hb₂, rfl⟩ :
          ∃ t tail₂, (b ≤ t ∧ t < e) ∧ inBox (r :: rest) tail₂ ∧ tail = t :: tail₂ := by
        cases hb with
        | cons hab htail => exact ⟨_, _, hab, htail, rfl⟩
      obtain ⟨dAxis, suf₂, hbed, hr₂, rfl⟩ :
          ∃ dAxis suf₂, (b ≤ e ∧ e ≤ dAxis) ∧ validRanges suf₂ (r :: rest) ∧
            suf = dAxis :: suf₂ := by
        cases hr with
        | cons hrd hrest => exact ⟨_, _, hrd, hrest, rfl⟩
      simp only [assignAux]
      refine foldl_establish (fun d => d.length = product dims)
        (fun d => d.get? (indexMap dims (idxs ++ t :: tail₂)) = some v)
        (fun d i => assignAux dims v (r :: rest) (idxs ++ [i]) d) t
        (List.range' b (e - b)) data ?_ hlen ?_ ?_ ?_
      · exact List.mem_range'_1.mpr ⟨hbt.1, by omega⟩
      · intro d i hd
        show (assignAux dims v (r :: rest) (idxs ++ [i]) d).length = product dims
        rw [assignAux_length]
        exact hd
      · intro d hd
        show (assignAux dims v (r :: rest) (idxs ++ [t]) d).get?
          (indexMap dims (idxs ++ t :: tail₂)) = some v
        have := assignAux_get?_of_inBox dims v (r :: rest) suf₂ (pre ++ [dAxis])
          (idxs ++ [t]) d tail₂ (by simp) (by rw [hsplit]; simp)
          (forall₂_append hidxs (List.Forall₂.cons (by omega) List.Forall₂.nil))
          hr₂ hb₂ hd
        rw [← this]
        congr 1
        simp
      · intro d i hd
        show (assignAux dims v (r :: rest) (idxs ++ [i]) d).get?
          (indexMap dims (idxs ++ t :: tail₂)) = some v
        rcases assignAux_get?_or dims v (r :: rest) (idxs ++ [i]) d
          (indexMap dims (idxs ++ t :: tail₂)) with h | h
        · exact h
        · rw [h]; exact hd

/-- An empty range on any axis makes the whole range assignment a no-op. -/
theorem assignAux_of_empty {T : Type} (dims : List Nat) (v : T) :
    ∀ (rs : List (Nat × Nat)) (idxs : List Nat) (data : List T),
      (∃ p ∈ rs, p.1 = p.2) → assignAux dims v rs idxs data = data
  | [], _, _, _ => rfl
  | [(b, e)], idxs, data, hp => by
      obtain ⟨p, hmem, hpe⟩ := hp
      rcases List.mem_singleton.mp hmem with rfl
      simp only [assignAux]
      have : e - b = 0 := by omega
      rw [this]
      rfl
  | (b, e) :: r :: rest, idxs, data, hp => by
      simp only [assignAux]
      obtain ⟨p, hmem, hpe⟩ := hp
      rcases List.mem_cons.mp hmem with rfl | hmem
      · have : e - b = 0 := by omega
        rw [this]
        rfl
      · refine foldl_preserve (fun d => d = data)
          (fun d i => assignAux dims v (r :: rest) (idxs ++ [i]) d) ?_
          (List.range' b (e - b)) data rfl
        intro d i hd
        show assignAux dims v (r :: rest) (idxs ++ [i]) d = data
        rw [assignAux_of_empty dims v (r :: rest) (idxs ++ [i]) d ⟨p, hmem, hpe⟩, hd]

/-- The index map evaluates any argument pack of length `k ≤ D` as a row-major
offset into the last `k` axes: argument `m` is weighted by the product of the
axis sizes strictly to the right of the axis it addresses. -/
theorem indexMap_eq_sum (dims : List Nat) :
    ∀ (idx : List Nat), idx.length ≤ dims.length →
      indexMap dims idx =
        ((List.range idx.length).map
          (fun m => idx.getD m 0 * product (dims.drop (dims.length - idx.length + m + 1)))).sum := by
  intro idx
  induction idx with
  | nil => intro _; rfl
  | cons i t ih =>
    intro h
    have ht : t.length + 1 ≤ dims.length := by simpa using h
    simp only [indexMap]
    rw [ih (by omega)]
    rw [List.length_cons, List.range_succ_eq_map, List.map_cons, List.sum_cons, List.map_map]
    congr 1
    · have h0 : dims.length - (t.length + 1) + 0 + 1 = dims.length - t.length := by omega
      rw [h0]
      rfl
    · refine congrArg List.sum ?_
      symm
      apply List.map_congr_left
      intro m _
      simp only [Function.comp_apply, List.getD_cons_succ]
      have hm : dims.length - (t.length + 1) + (m + 1) + 1 = dims.length - t.length + m + 1 := by
        omega
      rw [hm]

/-- The total element count is zero as soon as one axis size is zero. -/
theorem product_eq_zero {sizes : List Nat} (h : 0 ∈ sizes) : product sizes = 0 := by
  induction sizes with
  | nil => cases h
  | cons s t ih =>
    rcases List.mem_cons.mp h with rfl | hm
    · simp [product]
    · simp [product, ih hm]

/-! Claim theorems. -/

/-- C1: for every `D ≥ 1`, every MultiArray whose axis sizes are `dims` (its
store having the constructed length `product dims`), every value `v`, and every
valid range table (`0 ≤ begin_k ≤ end_k ≤ dims[k]` for all `k`),
`assign(ranges, v)` writes `v` into exactly those elements whose coordinate
tuple satisfies `begin_k ≤ i_k < end_k` for all `k`, and leaves every other
element at its prior value. -/
theorem C1_range_assign_box {T : Type} (v : T) (a : MultiArray T) (ranges : List (Nat × Nat))
    (hD : a.d_dimensions ≠ [])
    (hlen : a.d_data.length = product a.d_dimensions)
    (hr : validRanges a.d_dimensions ranges) :
    ∀ idx : List Nat, validIndex a.d_dimensions idx →
      (inBox ranges idx → (a.assign ranges v).readAt idx = some v) ∧
      (¬ inBox ranges idx → (a.assign ranges v).readAt idx = a.readAt idx) := by
  intro idx hidx
  constructor
  · intro hbox
    have hne : ranges ≠ [] := by
      intro h
      subst h
      have hlen2 := hr.length_eq
      have : a.d_dimensions = [] := List.length_eq_zero.mp (by simpa using hlen2.symm)
      exact hD this
    simp only [MultiArray.assign, MultiArray.readAt]
    have := assignAux_get?_of_inBox a.d_dimensions v ranges a.d_dimensions [] [] a.d_data idx
      hne rfl List.Forall₂.nil hr hbox hlen
    simpa using this
  · intro hbox
    simp only [MultiArray.assign, MultiArray.readAt]
    apply assignAux_get?_of_notMem
    intro tail hb heq
    have hvt : validIndex a.d_dimensions tail := validIndex_of_inBox hr hb
    have heq2 : indexMap a.d_dimensions tail = indexMap a.d_dimensions idx := by
      simpa using heq.symm
    have : tail = idx := indexMap_injOn hvt hidx heq2
    subst this
    exact hbox hb

/-- Witness for C1 at the spec's own example: dims = (3,3),
`assign({[0,2),[1,3)}, 9)` on a zero-initialised array sets coordinate (0,1) to 9
and leaves coordinate (2,1) at its prior value. -/
theorem C1_range_assign_box_witness :
    (([3, 3] : List Nat) ≠ [] ∧
        (MultiArray.make (0 : Nat) [3, 3]).d_data.length = product [3, 3] ∧
        validRanges [3, 3] [(0, 2), (1, 3)] ∧ validIndex [3, 3] [0, 1] ∧
        inBox [(0, 2), (1, 3)] [0, 1] ∧ validIndex [3, 3] [2, 1] ∧
        ¬ inBox [(0, 2), (1, 3)] [2, 1]) ∧
      ((MultiArray.make (0 : Nat) [3, 3]).assign [(0, 2), (1, 3)] 9).readAt [0, 1] = some 9 ∧
      ((MultiArray.make (0 : Nat) [3, 3]).assign [(0, 2), (1, 3)] 9).readAt [2, 1] =
        (MultiArray.make (0 : Nat) [3, 3]).readAt [2, 1] :=
  ⟨⟨by decide, by decide, by decide, by decide, by decide, by decide, by decide⟩,
    (C1_range_assign_box 9 (MultiArray.make 0 [3, 3]) [(0, 2), (1, 3)] (by decide) (by decide)
        (by decide) [0, 1] (by decide)).1 (by decide),
    (C1_range_assign_box 9 (MultiArray.make 0 [3, 3]) [(0, 2), (1, 3)] (by decide) (by decide)
        (by decide) [2, 1] (by decide)).2 (by decide)⟩

/-- C2: at full arity, the index operation returns
`offset = Σ_k index[k] * stride[k]` with `stride[k] = product(dims[k+1 .. D-1])`
and `stride[D-1] = 1` — row-major linear indexing. -/
theorem C2_full_arity_offset (dims idx : List Nat) (hD : dims ≠ [])
    (h : validIndex dims idx) :
    indexMap dims idx =
      ((List.range dims.length).map
        (fun k => idx.getD k 0 * product (dims.drop (k + 1)))).sum := by
  have hlen := h.length_eq
  rw [indexMap_eq_sum dims idx (le_of_eq hlen)]
  simp only [hlen, Nat.sub_self, Nat.zero_add]

/-- Witness for C2: dims = (2,3,4), index (1,2,3) gives 1·12 + 2·4 + 3·1 = 23. -/
theorem C2_full_arity_offset_witness :
    (([2, 3, 4] : List Nat) ≠ [] ∧ validIndex [2, 3, 4] [1, 2, 3]) ∧
      indexMap [2, 3, 4] [1, 2, 3] =
        ((List.range ([2, 3, 4] : List Nat).length).map
          (fun k => ([1, 2, 3] : List Nat).getD k 0 *
            product (([2, 3, 4] : List Nat).drop (k + 1)))).sum :=
  ⟨⟨by decide, by decide⟩, C2_full_arity_offset [2, 3, 4] [1, 2, 3] (by decide) (by decide)⟩

/-- C3: for every `D ≥ 1` and every dimension vector, the index map restricted to
valid coordinate tuples is a bijection onto `[0, total)` where
`total = product dims`. -/
theorem C3_indexMap_bijOn (dims : List Nat) (hD : dims ≠ []) :
    Set.BijOn (indexMap dims) {idx | validIndex dims idx} (Set.Iio (product dims)) := by
  refine ⟨fun idx h => indexMap_lt h, fun x hx y hy heq => indexMap_injOn hx hy heq, ?_⟩
  intro n hn
  obtain ⟨hv, he⟩ := validIndex_unindex hn
  exact ⟨unindex dims n, hv, he⟩

/-- Witness for C3 at dims = (2,3). -/
theorem C3_indexMap_bijOn_witness :
    (([2, 3] : List Nat) ≠ []) ∧
      Set.BijOn (indexMap [2, 3]) {idx | validIndex [2, 3] idx} (Set.Iio (product [2, 3])) :=
  ⟨by decide, C3_indexMap_bijOn [2, 3] (by decide)⟩

/-- C6: writing `v` through the element-access operator at a valid coordinate and
reading the same coordinate returns `v`, and every other valid coordinate reads
its prior value. -/
theorem C6_write_read_roundtrip {T : Type} (a : MultiArray T) (idx idx' : List Nat) (v : T)
    (hlen : a.d_data.length = product a.d_dimensions)
    (h : validIndex a.d_dimensions idx) (h' : validIndex a.d_dimensions idx')
    (hne : idx' ≠ idx) :
    (a.writeAt idx v).readAt idx = some v ∧
    (a.writeAt idx v).readAt idx' = a.readAt idx' := by
  constructor
  · simp only [MultiArray.writeAt, MultiArray.readAt]
    exact List.get?_set_eq_of_lt _ (hlen ▸ indexMap_lt h)
  · simp only [MultiArray.writeAt, MultiArray.readAt]
    apply List.get?_set_ne
    intro heq
    exact hne (indexMap_injOn h' h heq.symm)

/-- Witness for C6 at dims = (2,2): write 7 at (0,1), read it back, and observe
(1,0) unchanged. -/
theorem C6_write_read_roundtrip_witness :
    ((MultiArray.make (0 : Nat) [2, 2]).d_data.length = product [2, 2] ∧
        validIndex [2, 2] [0, 1] ∧ validIndex [2, 2] [1, 0] ∧
        ([1, 0] : List Nat) ≠ [0, 1]) ∧
      ((MultiArray.make (0 : Nat) [2, 2]).writeAt [0, 1] 7).readAt [0, 1] = some 7 ∧
      ((MultiArray.make (0 : Nat) [2, 2]).writeAt [0, 1] 7).readAt [1, 0] =
        (MultiArray.make (0 : Nat) [2, 2]).readAt [1, 0] :=
  ⟨⟨by decide, by decide, by decide, by decide⟩,
    C6_write_read_roundtrip (MultiArray.make 0 [2, 2]) [0, 1] [1, 0] 7 (by decide) (by decide)
      (by decide) (by decide)⟩

/-- C7: a valid range table with `begin_k == end_k` on some axis leaves every
element of the backing store unchanged — the empty range is a valid no-op. -/
theorem C7_empty_range_noop {T : Type} (v : T) (a : MultiArray T) (ranges : List (Nat × Nat))
    (hr : validRanges a.d_dimensions ranges)
    (hempty : ∃ p ∈ ranges, p.1 = p.2) :
    (a.assign ranges v).d_data = a.d_data :=
  assignAux_of_empty a.d_dimensions v ranges [] a.d_data hempty

/-- Witness for C7: dims = (3,3), ranges {[1,1),[0,3)} — the empty first-axis
range makes the assignment a no-op. -/
theorem C7_empty_range_noop_witness :
    (validRanges [3, 3] [(1, 1), (0, 3)] ∧
        ∃ p ∈ ([(1, 1), (0, 3)] : List (Nat × Nat)), p.1 = p.2) ∧
      ((MultiArray.make (0 : Nat) [3, 3]).assign [(1, 1), (0, 3)] 7).d_data =
        (MultiArray.make (0 : Nat) [3, 3]).d_data :=
  ⟨⟨by decide, by decide⟩,
    C7_empty_range_noop 7 (MultiArray.make 0 [3, 3]) [(1, 1), (0, 3)] (by decide) (by decide)⟩

/-- C8: construction with sizes `s0..s_{D-1}` creates the backing store with
exactly `product sizes` default-constructed elements (zero as soon as one axis
size is zero), and the invariant `len(data) = product(dimensions)` holds after
construction and is preserved by the element write and by both assign overloads;
`index`, `dim` and `size` are read-only queries of the embedding and leave the
state untouched by construction. -/
theorem C8_length_invariant {T : Type} (dflt v : T) (sizes idx : List Nat)
    (ranges : List (Nat × Nat)) (a : MultiArray T)
    (hlen : a.d_data.length = product a.d_dimensions) :
    ((MultiArray.make dflt sizes).d_data = List.replicate (product sizes) dflt) ∧
    (0 ∈ sizes → product sizes = 0) ∧
    ((MultiArray.make dflt sizes).d_data.length =
      product (MultiArray.make dflt sizes).d_dimensions) ∧
    ((a.writeAt idx v).d_data.length = product (a.writeAt idx v).d_dimensions) ∧
    ((a.assign ranges v).d_data.length = product (a.assign ranges v).d_dimensions) ∧
    ((a.assignAll v).d_data.length = product (a.assignAll v).d_dimensions) := by
  refine ⟨rfl, fun h0 => product_eq_zero h0, by simp [MultiArray.make], ?_, ?_, ?_⟩
  · simp only [MultiArray.writeAt, List.length_set]
    exact hlen
  · simp only [MultiArray.assign]
    rw [assignAux_length]
    exact hlen
  · simp only [MultiArray.assignAll, List.length_map]
    exact hlen

/-- Witness for C8 at sizes (2,0,3) (zero axis) and a concrete (2,3) array. -/
theorem C8_length_invariant_witness :
    ((MultiArray.make (0 : Nat) [2, 3]).d_data.length = product [2, 3]) ∧
      ((MultiArray.make (5 : Nat) [2, 0, 3]).d_data =
        List.replicate (product [2, 0, 3]) 5) ∧
      (0 ∈ ([2, 0, 3] : List Nat) → product [2, 0, 3] = 0) ∧
      (((MultiArray.make (0 : Nat) [2, 3]).assign [(0, 2), (1, 3)] 9).d_data.length =
        product ((MultiArray.make (0 : Nat) [2, 3]).assign [(0, 2), (1, 3)] 9).d_dimensions) :=
  ⟨by decide,
    (C8_length_invariant (5 : Nat) 9 [2, 0, 3] [0, 0] [] (MultiArray.make 5 [2, 0, 3])
(by decide)).1,
    (C8_length_invariant (5 : Nat) 9 [2, 0, 3] [0, 0] [] (MultiArray.make 5 [2, 0, 3])
(by decide)).2.1,
    (C8_length_invariant (0 : Nat) 9 [2, 3] [0, 0] [(0, 2), (1, 3)] (MultiArray.make 0 [2, 3])
(by decide)).2.2.2.2.1⟩

/-- C10: the index operation accepts any positive number k of arguments, k at most D, and
returns the row-major offset obtained by treating them as indices into the last
`k` axes: argument `m` is weighted by `product(dims[D-k+m+1 .. D-1])`. -/
theorem C10_subarity_offset (dims idx : List Nat) (hpos : idx ≠ [])
    (h : idx.length ≤ dims.length) :
    indexMap dims idx =
      ((List.range idx.length).map
        (fun m => idx.getD m 0 * product (dims.drop (dims.length - idx.length + m + 1)))).sum :=
  indexMap_eq_sum dims idx h

/-- Witness for C10: dims = (2,3,4) with the two-argument pack (2,3) gives
2·4 + 3·1 = 11, indexing the last two axes. -/
theorem C10_subarity_offset_witness :
    (([2, 3] : List Nat) ≠ [] ∧ ([2, 3] : List Nat).length ≤ ([2, 3, 4] : List Nat).length) ∧
      indexMap [2, 3, 4] [2, 3] =
        ((List.range ([2, 3] : List Nat).length).map
          (fun m => ([2, 3] : List Nat).getD m 0 *
            product (([2, 3, 4] : List Nat).drop
              (([2, 3, 4] : List Nat).length - ([2, 3] : List Nat).length + m + 1)))).sum :=
  ⟨⟨by decide, by decide⟩, C10_subarity_offset [2, 3, 4] [2, 3] (by decide) (by decide)⟩

/-! The debug variant: relation to multiarr.h and the counter arithmetic. -/

theorem foldl_fst {α β γ : Type} (g : α × γ → β → α × γ) (f : α → β → α)
    (hfg : ∀ s b, (g s b).1 = f s.1 b) :
    ∀ (l : List β) (s : α × γ), (l.foldl g s).1 = l.foldl f s.1 := by
  intro l
  induction l with
  | nil => intro s; rfl
  | cons b l ih =>
    intro s
    rw [List.foldl_cons, List.foldl_cons, ih, hfg]

/-- The backing store computed by the debug variant is exactly the one computed
by multiarr.h: the two differ only in the counter component. -/
theorem assignAuxDbg_fst {T : Type} (dims : List Nat) (v : T) :
    ∀ (rs : List (Nat × Nat)) (idxs : List Nat) (st : List T × Nat),
      (assignAuxDbg dims v rs idxs st).1 = assignAux dims v rs idxs st.1
  | [], _, _ => rfl
  | [(b, e)], _, _ => rfl
  | (b, e) :: r :: rest, idxs, st => by
      simp only [assignAuxDbg, assignAux]
      exact foldl_fst
        (fun s i => assignAuxDbg dims v (r :: rest) (idxs ++ [i]) s)
        (fun d i => assignAux dims v (r :: rest) (idxs ++ [i]) d)
        (fun s i => assignAuxDbg_fst dims v (r :: rest) (idxs ++ [i]) s)
        (List.range' b (e - b)) st

/-- The debug counter grows by exactly the product of the per-axis trip counts
`end_k - begin_k`: one innermost call per outer coordinate combination, each
adding the innermost trip count. -/
theorem assignAuxDbg_snd {T : Type} (dims : List Nat) (v : T) :
    ∀ (rs : List (Nat × Nat)) (idxs : List Nat) (st : List T × Nat),
      rs ≠ [] →
      (assignAuxDbg dims v rs idxs st).2 = st.2 + product (rs.map (fun p => p.2 - p.1))
  | [], _, _, hne => absurd rfl hne
  | [(b, e)], _, st, _ => by
      simp only [assignAuxDbg, List.map_cons, List.map_nil, product]
      ring
  | (b, e) :: r :: rest, idxs, st, _ => by
      simp only [assignAuxDbg]
      have key : ∀ (is : List Nat) (st : List T × Nat),
          (is.foldl (fun s i => assignAuxDbg dims v (r :: rest) (idxs ++ [i]) s) st).2 =
            st.2 + is.length * product ((r :: rest).map (fun p => p.2 - p.1)) := by
        intro is
        induction is with
        | nil => intro st; simp
        | cons i is ih =>
          intro st
          rw [List.foldl_cons, ih]
          have := assignAuxDbg_snd dims v (r :: rest) (idxs ++ [i]) st (by simp)
          rw [this]
          simp only [List.length_cons]
          ring
      rw [key, List.length_range']
      simp only [List.map_cons, product]

/-! The iterator variant: its splice-based fill agrees with the address-based
fill whenever the iterators stay inside the container. -/

/-- A fill of zero elements is a no-op for the iterator-based fill as well. -/
theorem fillIter_zero {T : Type} (data : List T) (s : Nat) (v : T) :
    fillIter data s 0 v = data := by
  simp [fillIter, List.take_append_drop]

/-- Inside the container, the iterator-based splice fill coincides with the
repeated element-address fill. -/
theorem fillIter_eq_fillN {T : Type} (v : T) :
    ∀ (n : Nat) (data : List T) (s : Nat), s + n ≤ data.length →
      fillIter data s n v = fillN data s n v := by
  intro n
  induction n with
  | zero =>
    intro data s _
    exact fillIter_zero data s v
  | succ n ih =>
    intro data s h
    have hs : s < data.length := by omega
    simp only [fillN]
    rw [← ih (data.set s v) (s + 1) (by rw [List.length_set]; omega)]
    simp only [fillIter]
    have h1 : (data.set s v).take (s + 1) = data.take s ++ [v] := by
      rw [List.set_eq_take_append_cons_drop, if_pos hs, List.take_append_eq_append_take]
      have hlt : (data.take s).length = s := by rw [List.length_take]; omega
      rw [List.take_take, Nat.min_eq_right (by omega), hlt]
      have : s + 1 - s = 1 := by omega
      rw [this]
      rfl
    have h2 : (data.set s v).drop (s + 1 + n) = data.drop (s + 1 + n) := by
      rw [List.drop_set, if_pos (by omega)]
    rw [h1, h2, List.replicate_succ]
    have : s + (n + 1) = s + 1 + n := by omega
    rw [this]
    simp [List.append_assoc]

theorem foldl_congr_inv {α β : Type} (Q : α → Prop) (f g : α → β → α) :
    ∀ (l : List β) (a : α), Q a → (∀ a b, Q a → Q (g a b)) →
      (∀ a b, b ∈ l → Q a → f a b = g a b) → l.foldl f a = l.foldl g a := by
  intro l
  induction l with
  | nil => intro a _ _ _; rfl
  | cons b l ih =>
    intro a hQ hQp hfg
    rw [List.foldl_cons, List.foldl_cons, hfg a b (List.mem_cons.mpr (Or.inl rfl)) hQ]
    exact ih _ (hQp a b hQ) hQp (fun a c hc hQa => hfg a c (List.mem_cons.mpr (Or.inr hc)) hQa)

/-- On a valid range table (and a store of the constructed length), the iterator
variant computes exactly the backing store of multiarr.h: every innermost run
stays inside the container, where splice fill and address fill agree. -/
theorem assignAuxIter_eq {T : Type} (dims : List Nat) (v : T) :
    ∀ (rs : List (Nat × Nat)) (suf pre idxs : List Nat) (data : List T),
      dims = pre ++ suf →
      validIndex pre idxs →
      validRanges suf rs →
      data.length = product dims →
      assignAuxIter dims v rs idxs data = assignAux dims v rs idxs data
  | [], _, _, _, _, _, _, _, _ => rfl
  | [(b, e)], suf, pre, idxs, data, hsplit, hidxs, hr, hlen => by
      obtain ⟨d, hbe, hed, rfl⟩ : ∃ d, b ≤ e ∧ e ≤ d ∧ suf = [d] := by
        cases hr with
        | cons hrd hrest => cases hrest; exact ⟨_, hrd.1, hrd.2, rfl⟩
      simp only [assignAuxIter, assignAux]
      rcases Nat.eq_or_lt_of_le hbe with rfl | hlt
      · rw [Nat.sub_self, fillIter_zero]
        rfl
      · apply fillIter_eq_fillN
        have hvt : validIndex dims (idxs ++ [e - 1]) := by
          rw [hsplit]
          exact forall₂_append hidxs (List.Forall₂.cons (by omega) List.Forall₂.nil)
        have hub := indexMap_lt hvt
        have hob := indexMap_append_last dims idxs b
        have hoe := indexMap_append_last dims idxs (e - 1)
        omega
  | (b, e) :: r :: rest, suf, pre, idxs, data, hsplit, hidxs, hr, hlen => by
      obtain ⟨dAxis, suf₂, hbed, hr₂, rfl⟩ :
          ∃ dAxis suf₂, (b ≤ e ∧ e ≤ dAxis) ∧ validRanges suf₂ (r :: rest) ∧
            suf = dAxis :: suf₂ := by
        cases hr with
        | cons hrd hrest => exact ⟨_, _, hrd, hrest, rfl⟩
      simp only [assignAuxIter, assignAux]
      apply foldl_congr_inv (fun d => d.length = product dims)
        (fun d i => assignAuxIter dims v (r :: rest) (idxs ++ [i]) d)
        (fun d i => assignAux dims v (r :: rest) (idxs ++ [i]) d)
        (List.range' b (e - b)) data hlen
      · intro d i hd
        show (assignAux dims v (r :: rest) (idxs ++ [i]) d).length = product dims
        rw [assignAux_length]
        exact hd
      · intro d i hi hd
        have hi' := List.mem_range'_1.mp hi
        show assignAuxIter dims v (r :: rest) (idxs ++ [i]) d =
          assignAux dims v (r :: rest) (idxs ++ [i]) d
        exact assignAuxIter_eq dims v (r :: rest) suf₂ (pre ++ [dAxis]) (idxs ++ [i]) d
          (by rw [hsplit]; simp)
          (forall₂_append hidxs (List.Forall₂.cons (by omega) List.Forall₂.nil))
          hr₂ hd

/-- C4: for every `D ≥ 1`, starting contents, value and valid range table, the
debug variant (innermost fill through element addresses `&d_data[begin]`) and the
iterator variant (innermost fill through `d_data.begin() + offset`) leave the
backing store in identical final states. -/
theorem C4_variants_same_store {T : Type} (v : T) (dims : List Nat) (data : List T) (c : Nat)
    (ranges : List (Nat × Nat)) (hD : dims ≠ [])
    (hr : validRanges dims ranges) (hlen : data.length = product dims) :
    ((MultiArrayDbg.mk data dims c).assign ranges v).d_data =
      ((MultiArray.mk data dims).assignIter ranges v).d_data := by
  show (assignAuxDbg dims v ranges [] (data, c)).1 = assignAuxIter dims v ranges [] data
  rw [assignAuxDbg_fst,
    assignAuxIter_eq dims v ranges dims [] [] data rfl List.Forall₂.nil hr hlen]

/-- Witness for C4 at dims = (3,3), ranges {[0,2),[1,3)}, value 9, zeroed store. -/
theorem C4_variants_same_store_witness :
    (([3, 3] : List Nat) ≠ [] ∧ validRanges [3, 3] [(0, 2), (1, 3)] ∧
        (List.replicate 9 (0 : Nat)).length = product [3, 3]) ∧
      ((MultiArrayDbg.mk (List.replicate 9 (0 : Nat)) [3, 3] 0).assign [(0, 2), (1, 3)] 9).d_data =
        ((MultiArray.mk (List.replicate 9 (0 : Nat)) [3, 3]).assignIter [(0, 2), (1, 3)] 9).d_data :=
  ⟨⟨by decide, by decide, by decide⟩,
    C4_variants_same_store 9 [3, 3] (List.replicate 9 0) 0 [(0, 2), (1, 3)] (by decide)
      (by decide) (by decide)⟩

/-- C9: in the debug variant, `assign(ranges, value)` on a valid range table
increases the public `counter` field by exactly `Π_k (end_k - begin_k)` — the
number of elements touched — and neither the element write nor the uniform fill
touches the counter. -/
theorem C9_debug_counter {T : Type} (v : T) (a : MultiArrayDbg T) (ranges : List (Nat × Nat))
    (hD : a.d_dimensions ≠ [])
    (hr : validRanges a.d_dimensions ranges) :
    (a.assign ranges v).counter = a.counter + product (ranges.map (fun p => p.2 - p.1)) ∧
    (∀ (idx : List Nat) (w : T), (a.writeAt idx w).counter = a.counter) ∧
    (∀ w : T, (a.assignAll w).counter = a.counter) := by
  refine ⟨?_, fun idx w => rfl, fun w => rfl⟩
  have hne : ranges ≠ [] := by
    intro h
    subst h
    have hlen2 := hr.length_eq
    exact hD (List.length_eq_zero.mp (by simpa using hlen2.symm))
  show (assignAuxDbg a.d_dimensions v ranges [] (a.d_data, a.counter)).2 =
    a.counter + product (ranges.map (fun p => p.2 - p.1))
  exact assignAuxDbg_snd a.d_dimensions v ranges [] (a.d_data, a.counter) hne

/-- Witness for C9: dims = (3,3), ranges {[0,2),[1,3)} — counter goes from 0 to
`2·2 = 4` elements touched. -/
theorem C9_debug_counter_witness :
    (([3, 3] : List Nat) ≠ [] ∧ validRanges [3, 3] [(0, 2), (1, 3)]) ∧
      ((MultiArrayDbg.make (0 : Nat) [3, 3]).assign [(0, 2), (1, 3)] 9).counter =
        (MultiArrayDbg.make (0 : Nat) [3, 3]).counter +
          product (([(0, 2), (1, 3)] : List (Nat × Nat)).map (fun p => p.2 - p.1)) ∧
      (∀ (idx : List Nat) (w : Nat),
        ((MultiArrayDbg.make (0 : Nat) [3, 3]).writeAt idx w).counter =
          (MultiArrayDbg.make (0 : Nat) [3, 3]).counter) :=
  ⟨⟨by decide, by decide⟩,
    (C9_debug_counter 9 (MultiArrayDbg.make 0 [3, 3]) [(0, 2), (1, 3)] (by decide)
      (by decide)).1,
    (C9_debug_counter 9 (MultiArrayDbg.make 0 [3, 3]) [(0, 2), (1, 3)] (by decide)
      (by decide)).2.1⟩

/-- C5 counterexample: multiarr.h performs no validation of the range table.
With dims = (3,3) and the invalid table {[0,1),[0,5)} (end₁ = 5 exceeds
dimensions[1] = 3), `assign` reports nothing and does not leave the store
unchanged: it silently overwrites element (1,0), a coordinate outside the
requested box (its axis-0 index 1 is not in [0,1)), because the unchecked inner
run of length 5 overflows the row. -/
theorem C5_no_validation_counterexample :
    ¬ validRanges [3, 3] [(0, 1), (0, 5)] ∧
    ¬ inBox [(0, 1), (0, 5)] [1, 0] ∧
    ((MultiArray.make (0 : Nat) [3, 3]).assign [(0, 1), (0, 5)] 9).readAt [1, 0] = some 9 ∧
    (MultiArray.make (0 : Nat) [3, 3]).readAt [1, 0] = some 0 := by
  decide

/-- C5 as amended: `assign` performs no validation and silently executes the
unchecked fill arithmetic.  At dims = (3,3) with the invalid table
{[0,1),[0,5)} and value 9, the whole run of 5 elements starting at offset 0 is
written, producing the store [9,9,9,9,9,0,0,0,0] — elements (1,0) and (1,1)
outside the requested box are silently overwritten and no error of any kind is
surfaced. -/
theorem C5_no_validation_behavior :
    ((MultiArray.make (0 : Nat) [3, 3]).assign [(0, 1), (0, 5)] 9).d_data =
      [9, 9, 9, 9, 9, 0, 0, 0, 0] := by
  decide

end MultiArr


